import Mathlib

/-!
Verification development for the Wilson-Cowan notebook
(`Day8/Day_NM.ipynb`): the rectified-linear activation `act_fun`, the
scalar two-population Euler solver `WC_solver`, the vectorized
N-population solver `WC_solver_MW`, and the spectral analyzer `FF`.

Numeric model: the solver code is embedded over exact rationals `ℚ`
(the Python source computes with floats; all claims are stated up to
floating-point association, which exact rational arithmetic realizes).
The spectral analyzer is embedded over `ℝ`/`ℂ` because the discrete
Fourier transform uses transcendental roots of unity.

The numpy arrays `r_E`, `r_I` (and the columns of `r`) are embedded as
`List ℚ`; the in-place writes `r_E[i+1] = ...` of the source loop become
`List.set`, and reads `r_E[i]` become `List.getD` with default `0`.
Elementwise numpy operations on 1-d arrays are embedded as
`Option`-valued functions that fail (`none`) exactly when numpy
broadcasting would raise, so a Python exception escaping the loop is
modelled by the whole solver returning `none`.
-/

namespace WCModel

/-- `act_fun(z) = z * (z > 0)`: the linear-rectified activation from the
notebook, i.e. `z` when `z > 0` and `0` otherwise. -/
def act_fun (z : ℚ) : ℚ := if 0 < z then z else 0

/-- `np.arange(0, T_end, dt)` for rational arguments: the list
`[0, dt, 2*dt, ...]` of all `k*dt` with `k*dt < T_end`; its length is
`⌈T_end/dt⌉` when `dt > 0`. -/
def arange (T_end dt : ℚ) : List ℚ :=
  (List.range (Int.toNat ⌈T_end / dt⌉)).map (fun k : ℕ => (k : ℚ) * dt)

/-- One iteration of the loop body of `WC_solver`: reads the index-`i`
entries of both activity arrays and writes index `i+1`. -/
def WC_body (I_E I_I w_EE w_EI w_IE w_II tau_E tau_I dt : ℚ)
    (s : List ℚ × List ℚ) (i : ℕ) : List ℚ × List ℚ :=
  let rEi := s.1.getD i 0
  let rIi := s.2.getD i 0
  let dr_E := dt / tau_E * (-rEi + act_fun (w_EE * rEi + w_EI * rIi + I_E))
  let dr_I := dt / tau_I * (-rIi + act_fun (w_IE * rEi + w_II * rIi + I_I))
  (s.1.set (i + 1) (rEi + dr_E), s.2.set (i + 1) (rIi + dr_I))

/-- The scalar two-population Wilson-Cowan solver `WC_solver` from the
notebook: builds `T = np.arange(0, T_end, dt)`, zero-initializes `r_E`
and `r_I` of length `len(T)`, runs the Euler loop for
`i in range(len(T)-1)`, and returns `(r_E, r_I, T)`. -/
def WC_solver (I_E I_I w_EE w_EI w_IE w_II tau_E tau_I dt T_end : ℚ) :
    List ℚ × List ℚ × List ℚ :=
  let T := arange T_end dt
  let s := (List.range (T.length - 1)).foldl
    (WC_body I_E I_I w_EE w_EI w_IE w_II tau_E tau_I dt)
    (List.replicate T.length 0, List.replicate T.length 0)
  (s.1, s.2, T)

/-- The synchronous Euler recurrence underlying `WC_solver`, as a pure
iteration on the pair `(r_E, r_I)` of current activities. `WC_iter k`
is proved below to agree with the `k`-th entries of the arrays built by
the imperative loop. -/
def WC_iter (I_E I_I w_EE w_EI w_IE w_II tau_E tau_I dt : ℚ) : ℕ → ℚ × ℚ
  | 0 => (0, 0)
  | k + 1 =>
    let p := WC_iter I_E I_I w_EE w_EI w_IE w_II tau_E tau_I dt k
    (p.1 + dt / tau_E * (-p.1 + act_fun (w_EE * p.1 + w_EI * p.2 + I_E)),
     p.2 + dt / tau_I * (-p.2 + act_fun (w_IE * p.1 + w_II * p.2 + I_I)))

/-- The state of the `WC_solver` loop after the first `j` iterations, on a
grid of length `M`. -/
def WC_state (I_E I_I w_EE w_EI w_IE w_II tau_E tau_I dt : ℚ) (M j : ℕ) :
    List ℚ × List ℚ :=
  (List.range j).foldl (WC_body I_E I_I w_EE w_EI w_IE w_II tau_E tau_I dt)
    (List.replicate M 0, List.replicate M 0)

/-!
Vectorized solver. 1-d numpy arrays are `List ℚ`; elementwise binary
operations follow numpy broadcasting for 1-d operands: equal lengths
operate pointwise, a length-1 operand is stretched, and any other
length combination raises, which the embedding models as `none`.
The `N × M` state array `r` is embedded as the list of its `M` columns
(each of length `N`), since the loop reads column `i` and writes column
`i+1`.
-/

/-- numpy elementwise addition of two 1-d arrays with broadcasting. -/
def np_add (a b : List ℚ) : Option (List ℚ) :=
  if a.length = b.length then some (List.zipWith (· + ·) a b)
  else if a.length = 1 then some (b.map (fun x => a.getD 0 0 + x))
  else if b.length = 1 then some (a.map (fun x => x + b.getD 0 0))
  else none

/-- numpy elementwise multiplication of two 1-d arrays with broadcasting. -/
def np_mul (a b : List ℚ) : Option (List ℚ) :=
  if a.length = b.length then some (List.zipWith (· * ·) a b)
  else if a.length = 1 then some (b.map (fun x => a.getD 0 0 * x))
  else if b.length = 1 then some (a.map (fun x => x * b.getD 0 0))
  else none

/-- Dot product of two equal-length vectors. -/
def dotProd (u v : List ℚ) : ℚ := (List.zipWith (· * ·) u v).sum

/-- `np.array(np.matrix(W) * np.matrix(v).T).T[0]`: matrix-vector
product; raises (`none`) unless every row of `W` has the length of
`v`. -/
def matvec (W : List (List ℚ)) (v : List ℚ) : Option (List ℚ) :=
  if ∀ row ∈ W, row.length = v.length then some (W.map (fun row => dotProd row v))
  else none

/-- One iteration of the `WC_solver_MW` loop body on the column-list
state: reads column `i`, computes
`dr = dt/tau * (-r[:,i] + act_fun(I_rec + I))` and writes column `i+1`;
any numpy broadcasting failure aborts the run (`none`). -/
def WC_MW_body (I : List ℚ) (W : List (List ℚ)) (tau : List ℚ) (dt : ℚ) (N : ℕ)
    (s : Option (List (List ℚ))) (i : ℕ) : Option (List (List ℚ)) := do
  let cols ← s
  let v := cols.getD i (List.replicate N 0)
  let I_rec ← matvec W v
  let z ← np_add I_rec I
  let g := z.map act_fun
  let s1 ← np_add (v.map (fun x => -x)) g
  let a := tau.map (fun t => dt / t)
  let dr ← np_mul a s1
  let v' ← np_add v dr
  if v'.length = N then pure (cols.set (i + 1) v') else none

/-- The vectorized (matrix-wise) Wilson-Cowan solver `WC_solver_MW`
from the notebook: `N = len(W)`, `T = np.arange(0, T_end, dt)`, state
`r = np.zeros((N, len(T)))` (embedded as its list of columns), Euler
loop for `i in range(len(T)-1)`, returning `(r, T)`; `none` models a
numpy exception escaping the call. -/
def WC_solver_MW (I : List ℚ) (W : List (List ℚ)) (tau : List ℚ) (dt T_end : ℚ) :
    Option (List (List ℚ) × List ℚ) := do
  let N := W.length
  let T := arange T_end dt
  let r ← (List.range (T.length - 1)).foldl (WC_MW_body I W tau dt N)
    (some (List.replicate T.length (List.replicate N 0)))
  pure (r, T)

/-- Row `j` of the column-list representation of the state array `r`
(the numpy slice `r[j,:]`). -/
def np_row (r : List (List ℚ)) (j : ℕ) : List ℚ := r.map (fun col => col.getD j 0)

/-- The state of the `WC_solver_MW` loop after `j` iterations. -/
def MW_state (I : List ℚ) (W : List (List ℚ)) (tau : List ℚ) (dtv : ℚ) (N M j : ℕ) :
    Option (List (List ℚ)) :=
  (List.range j).foldl (WC_MW_body I W tau dtv N)
    (some (List.replicate M (List.replicate N 0)))

/-- The column list reached after `j` iterations of the two-population
vectorized loop, described pointwise: columns up to `j` carry the
recurrence values, later columns are still the zero initialization. -/
def pairCols (I_E I_I w_EE w_EI w_IE w_II tau_E tau_I dt : ℚ) (M j : ℕ) :
    List (List ℚ) :=
  (List.range M).map (fun k =>
    if k ≤ j then [(WC_iter I_E I_I w_EE w_EI w_IE w_II tau_E tau_I dt k).1,
                   (WC_iter I_E I_I w_EE w_EI w_IE w_II tau_E tau_I dt k).2]
    else [0, 0])

/-- Columns of an `N`-population state that are well-formed and
pointwise non-negative. -/
def GoodCols (N : ℕ) (cols : List (List ℚ)) : Prop :=
  ∀ col ∈ cols, col.length = N ∧ ∀ x ∈ col, 0 ≤ x

/-!
Spectral analyzer. The trajectory fed to `FF` is real-valued, so the
de-meaning step and the transform are embedded over `ℝ` and `ℂ`
(`fftpack.fft` computes the discrete Fourier transform, embedded here as
its mathematical definition `dft`). The source reads the sampling step
`dt` from the enclosing notebook global; the embedding threads it as an
explicit argument with the same role. `np.nanmean` is the arithmetic
mean of the non-missing entries; a real-valued signal has no missing
(NaN) entries, so it is the plain mean.
-/

/-- `np.nanmean` on a real signal: the arithmetic mean. -/
noncomputable def listMean (x : List ℝ) : ℝ := x.sum / x.length

/-- `fftpack.fft`: the discrete Fourier transform
`X[k] = sum_n x[n] * exp(-2*pi*i*k*n/M)`. -/
noncomputable def dft (x : List ℂ) : List ℂ :=
  (List.range x.length).map (fun k : ℕ =>
    ∑ n ∈ Finset.range x.length,
      x.getD n 0 * Complex.exp (-(2 * (Real.pi : ℂ) * Complex.I * k * n / x.length)))

/-- `fftpack.fftfreq(n)`: the signed frequency bins
`[0, 1, ..., (n-1)/2, -(n/2), ..., -1] / n`. -/
noncomputable def fftfreq (n : ℕ) : List ℝ :=
  (List.range ((n + 1) / 2)).map (fun k : ℕ => (k : ℝ) / n)
    ++ (List.range (n / 2)).map (fun k : ℕ => ((k : ℝ) - (n / 2 : ℕ)) / n)

/-- The claim-side closed form of the `k`-th signed DFT frequency bin of
length `M`. -/
noncomputable def dftFreqBin (M k : ℕ) : ℝ :=
  if 2 * k < M then (k : ℝ) / M else ((k : ℝ) - M) / M

open Classical in
/-- Tail-recursive core of `np.argmax`: scans the remaining list with
the current position `i`, best index `bi` and best value `bv`,
replacing the best only on a strict increase (so the first maximal
index wins, as in numpy). -/
noncomputable def argmaxAux : List ℝ → ℕ → ℕ → ℝ → ℕ
  | [], _, bi, _ => bi
  | x :: xs, i, bi, bv =>
    if bv < x then argmaxAux xs (i + 1) i x else argmaxAux xs (i + 1) bi bv

/-- `np.argmax`: first index of a maximal element. -/
noncomputable def np_argmax (l : List ℝ) : ℕ := argmaxAux l.tail 1 0 (l.headD 0)

/-- The spectral analyzer `FF` from the notebook: de-means the signal
with `np.nanmean`, takes the DFT, scales the frequency bins by
`f_s = 1000/dt`, and reports the frequency and magnitude at the index
maximizing `abs(X)` (the zero-frequency bin is not excluded from the
search). The `plotting` flag only controls a rendering side effect and
is ignored by the core. -/
noncomputable def FF (dt : ℝ) (x0 : List ℝ) (_plotting : Bool) :
    List ℝ × List ℂ × ℝ × ℝ :=
  let f_s := 1000 / dt
  let x := x0.map (fun v => v - listMean x0)
  let X := dft (x.map (fun v : ℝ => (v : ℂ)))
  let freqs := (fftfreq x.length).map (fun v => v * f_s)
  let j := np_argmax (X.map Complex.abs)
  (freqs, X, freqs.getD j 0, Complex.abs (X.getD j 0))

section ScalarBridge

variable (I_E I_I w_EE w_EI w_IE w_II tau_E tau_I dt : ℚ)

/-- The loop body preserves the lengths of both arrays. -/
theorem WC_body_lengths (s : List ℚ × List ℚ) (i : ℕ) :
    (WC_body I_E I_I w_EE w_EI w_IE w_II tau_E tau_I dt s i).1.length = s.1.length ∧
    (WC_body I_E I_I w_EE w_EI w_IE w_II tau_E tau_I dt s i).2.length = s.2.length := by
  simp [WC_body]

/-- After folding the loop body over `range j`, both arrays still have
their initial length. -/
theorem WC_foldl_lengths (j : ℕ) (init : List ℚ × List ℚ) :
    ((List.range j).foldl (WC_body I_E I_I w_EE w_EI w_IE w_II tau_E tau_I dt) init).1.length
      = init.1.length ∧
    ((List.range j).foldl (WC_body I_E I_I w_EE w_EI w_IE w_II tau_E tau_I dt) init).2.length
      = init.2.length := by
  induction j generalizing init with
  | zero => simp
  | succ j ih =>
    rw [List.range_succ, List.foldl_append]
    simp only [List.foldl_cons, List.foldl_nil]
    have hb := WC_body_lengths I_E I_I w_EE w_EI w_IE w_II tau_E tau_I dt
      ((List.range j).foldl (WC_body I_E I_I w_EE w_EI w_IE w_II tau_E tau_I dt) init) j
    exact ⟨hb.1.trans (ih init).1, hb.2.trans (ih init).2⟩

theorem WC_state_lengths (M j : ℕ) :
    (WC_state I_E I_I w_EE w_EI w_IE w_II tau_E tau_I dt M j).1.length = M ∧
    (WC_state I_E I_I w_EE w_EI w_IE w_II tau_E tau_I dt M j).2.length = M := by
  have h := WC_foldl_lengths I_E I_I w_EE w_EI w_IE w_II tau_E tau_I dt j
    (List.replicate M 0, List.replicate M 0)
  simpa [WC_state] using h

theorem WC_state_succ (M j : ℕ) :
    WC_state I_E I_I w_EE w_EI w_IE w_II tau_E tau_I dt M (j + 1)
      = WC_body I_E I_I w_EE w_EI w_IE w_II tau_E tau_I dt
          (WC_state I_E I_I w_EE w_EI w_IE w_II tau_E tau_I dt M j) j := by
  simp [WC_state, List.range_succ]

/-- Main bridging lemma: after `j` loop iterations all entries up to
index `j` of both arrays agree with the synchronous recurrence
`WC_iter`. -/
theorem WC_state_getD (M : ℕ) :
    ∀ j, j ≤ M - 1 → ∀ k, k ≤ j →
    (WC_state I_E I_I w_EE w_EI w_IE w_II tau_E tau_I dt M j).1.getD k 0
      = (WC_iter I_E I_I w_EE w_EI w_IE w_II tau_E tau_I dt k).1 ∧
    (WC_state I_E I_I w_EE w_EI w_IE w_II tau_E tau_I dt M j).2.getD k 0
      = (WC_iter I_E I_I w_EE w_EI w_IE w_II tau_E tau_I dt k).2 := by
  intro j
  induction j with
  | zero =>
    intro _ k hk
    interval_cases k
    simp [WC_state, WC_iter, List.getD_eq_getElem?_getD]
  | succ j ih =>
    intro hj k hk
    have hjM : j ≤ M - 1 := Nat.le_of_succ_le hj
    have hjlt : j + 1 < M := by omega
    have hlen := WC_state_lengths I_E I_I w_EE w_EI w_II w_IE tau_E tau_I dt M j
    rw [WC_state_succ]
    rcases Nat.lt_or_ge k (j + 1) with hklt | hkge
    · have hkj : k ≤ j := Nat.lt_succ_iff.mp hklt
      have hne : j + 1 ≠ k := by omega
      have := ih hjM k hkj
      simp only [WC_body, List.getD_eq_getElem?_getD, List.getElem?_set_ne hne]
      simpa [List.getD_eq_getElem?_getD] using this
    · have hkeq : k = j + 1 := by omega
      subst hkeq
      have hread := ih hjM j (le_refl j)
      have h1len : (WC_state I_E I_I w_EE w_EI w_IE w_II tau_E tau_I dt M j).1.length = M :=
        (WC_state_lengths I_E I_I w_EE w_EI w_IE w_II tau_E tau_I dt M j).1
      have h2len : (WC_state I_E I_I w_EE w_EI w_IE w_II tau_E tau_I dt M j).2.length = M :=
        (WC_state_lengths I_E I_I w_EE w_EI w_IE w_II tau_E tau_I dt M j).2
      simp only [WC_body, List.getD_eq_getElem?_getD,
        List.getElem?_set_self (h1len ▸ hjlt), List.getElem?_set_self (h2len ▸ hjlt),
        Option.getD_some]
      rw [show (WC_iter I_E I_I w_EE w_EI w_IE w_II tau_E tau_I dt (j + 1))
            = (let p := WC_iter I_E I_I w_EE w_EI w_IE w_II tau_E tau_I dt j
               (p.1 + dt / tau_E * (-p.1 + act_fun (w_EE * p.1 + w_EI * p.2 + I_E)),
                p.2 + dt / tau_I * (-p.2 + act_fun (w_IE * p.1 + w_II * p.2 + I_I)))) from rfl]
      rw [List.getD_eq_getElem?_getD, List.getD_eq_getElem?_getD] at hread
      rw [hread.1, hread.2]
      exact ⟨rfl, rfl⟩

theorem WC_solver_eq_state (T_end : ℚ) :
    WC_solver I_E I_I w_EE w_EI w_IE w_II tau_E tau_I dt T_end
      = ((WC_state I_E I_I w_EE w_EI w_IE w_II tau_E tau_I dt
            (arange T_end dt).length ((arange T_end dt).length - 1)).1,
         (WC_state I_E I_I w_EE w_EI w_IE w_II tau_E tau_I dt
            (arange T_end dt).length ((arange T_end dt).length - 1)).2,
         arange T_end dt) := rfl

theorem WC_solver_lengths (T_end : ℚ) :
    (WC_solver I_E I_I w_EE w_EI w_IE w_II tau_E tau_I dt T_end).1.length
      = (arange T_end dt).length ∧
    (WC_solver I_E I_I w_EE w_EI w_IE w_II tau_E tau_I dt T_end).2.1.length
      = (arange T_end dt).length := by
  rw [WC_solver_eq_state]
  exact ⟨(WC_state_lengths _ _ _ _ _ _ _ _ _ _ _).1,
    (WC_state_lengths _ _ _ _ _ _ _ _ _ _ _).2⟩

/-- The entries of the activity arrays returned by `WC_solver` are the
values of the synchronous recurrence `WC_iter`. -/
theorem WC_solver_getD (T_end : ℚ) (k : ℕ) (hk : k < (arange T_end dt).length) :
    (WC_solver I_E I_I w_EE w_EI w_IE w_II tau_E tau_I dt T_end).1.getD k 0
      = (WC_iter I_E I_I w_EE w_EI w_IE w_II tau_E tau_I dt k).1 ∧
    (WC_solver I_E I_I w_EE w_EI w_IE w_II tau_E tau_I dt T_end).2.1.getD k 0
      = (WC_iter I_E I_I w_EE w_EI w_IE w_II tau_E tau_I dt k).2 := by
  rw [WC_solver_eq_state]
  exact WC_state_getD I_E I_I w_EE w_EI w_IE w_II tau_E tau_I dt
    (arange T_end dt).length ((arange T_end dt).length - 1) (le_refl _) k (by omega)

theorem WC_solver_getD_oob (T_end : ℚ) (k : ℕ) (hk : (arange T_end dt).length ≤ k) :
    (WC_solver I_E I_I w_EE w_EI w_IE w_II tau_E tau_I dt T_end).1.getD k 0 = 0 ∧
    (WC_solver I_E I_I w_EE w_EI w_IE w_II tau_E tau_I dt T_end).2.1.getD k 0 = 0 := by
  have h := WC_solver_lengths I_E I_I w_EE w_EI w_IE w_II tau_E tau_I dt T_end
  exact ⟨List.getD_eq_default _ _ (h.1 ▸ hk), List.getD_eq_default _ _ (h.2 ▸ hk)⟩

end ScalarBridge

section Grid

/-- The length of `np.arange(0, T_end, dt)` is `⌈T_end/dt⌉` (as a
natural number; `0` when the ratio is non-positive). -/
theorem arange_length (T_end dt : ℚ) :
    (arange T_end dt).length = Nat.ceil (T_end / dt) := by
  simp only [arange, List.length_map, List.length_range, Int.ceil_toNat]

theorem arange_getD (T_end dt : ℚ) (k : ℕ) (hk : k < (arange T_end dt).length):
    (arange T_end dt).getD k 0 = (k : ℚ) * dt := by
  rw [List.getD_eq_getElem _ _ hk]
  simp only [arange, List.getElem_map, List.getElem_range]

theorem arange_pos_length (T_end dt : ℚ) (hdt : 0 < dt) (hT : 0 < T_end) :
    0 < (arange T_end dt).length := by
  rw [arange_length]
  exact Nat.ceil_pos.mpr (div_pos hT hdt)

/-- When `0 < T_end ≤ dt` the grid is the single point `[0]`. -/
theorem arange_single (T_end dt : ℚ) (hT : 0 < T_end) (hle : T_end ≤ dt) :
    arange T_end dt = [0] := by
  have hdt : 0 < dt := lt_of_lt_of_le hT hle
  have hM : Nat.ceil (T_end / dt) = 1 := by
    rw [Nat.ceil_eq_iff one_ne_zero]
    constructor
    · simpa using div_pos hT hdt
    · simpa using (div_le_one hdt).mpr hle
  have hlen : (arange T_end dt).length = 1 := by rw [arange_length, hM]
  have h1 : Int.toNat ⌈T_end / dt⌉ = 1 := by
    rw [Int.ceil_toNat, hM]
  rw [arange, h1]
  simp [List.range_succ]

end Grid

section MWBridge

variable (I_E I_I w_EE w_EI w_IE w_II tau_E tau_I dt : ℚ)

theorem MW_state_succ (I : List ℚ) (W : List (List ℚ)) (tau : List ℚ) (dtv : ℚ)
    (N M j : ℕ) :
    MW_state I W tau dtv N M (j + 1)
      = WC_MW_body I W tau dtv N (MW_state I W tau dtv N M j) j := by
  simp [MW_state, List.range_succ]

/-- Evaluation of the vectorized loop body in the two-population case:
on a state whose column `i` is `[e, ii]` it performs exactly the two
scalar Euler updates. -/
theorem WC_MW_body_two (cols : List (List ℚ)) (i : ℕ) (e ii : ℚ)
    (hv : cols.getD i (List.replicate 2 0) = [e, ii]) :
    WC_MW_body [I_E, I_I] [[w_EE, w_EI], [w_IE, w_II]] [tau_E, tau_I] dt 2 (some cols) i
      = some (cols.set (i + 1)
          [e + dt / tau_E * (-e + act_fun (w_EE * e + w_EI * ii + I_E)),
           ii + dt / tau_I * (-ii + act_fun (w_IE * e + w_II * ii + I_I))]) := by
  have hv' : cols[i]?.getD [0, 0] = [e, ii] := by
    simpa [List.getD_eq_getElem?_getD] using hv
  simp [WC_MW_body, matvec, dotProd, np_add, np_mul, hv']

theorem pairCols_zero (M : ℕ) :
    pairCols I_E I_I w_EE w_EI w_IE w_II tau_E tau_I dt M 0
      = List.replicate M (List.replicate 2 0) := by
  apply List.ext_getElem
  · simp [pairCols]
  · intro k h1 h2
    simp only [pairCols, List.getElem_map, List.getElem_range, List.getElem_replicate]
    split
    · next h =>
      interval_cases k
      simp [WC_iter, List.replicate]
    · simp [List.replicate]

theorem pairCols_set (M j : ℕ) (_hj : j + 1 < M) :
    (pairCols I_E I_I w_EE w_EI w_IE w_II tau_E tau_I dt M j).set (j + 1)
        [(WC_iter I_E I_I w_EE w_EI w_IE w_II tau_E tau_I dt (j + 1)).1,
         (WC_iter I_E I_I w_EE w_EI w_IE w_II tau_E tau_I dt (j + 1)).2]
      = pairCols I_E I_I w_EE w_EI w_IE w_II tau_E tau_I dt M (j + 1) := by
  apply List.ext_getElem
  · simp [pairCols]
  · intro k h1 h2
    rcases eq_or_ne k (j + 1) with hk | hk
    · subst hk
      rw [List.getElem_set_self]
      simp [pairCols]
    · rw [List.getElem_set_ne (Ne.symm hk)]
      simp only [pairCols, List.getElem_map, List.getElem_range]
      rcases Nat.lt_or_ge k (j + 1) with h | h
      · rw [if_pos (by omega : k ≤ j), if_pos (by omega : k ≤ j + 1)]
      · rw [if_neg (by omega : ¬ k ≤ j), if_neg (by omega : ¬ k ≤ j + 1)]

theorem pairCols_getD (M j k : ℕ) (hk : k < M) (hkj : k ≤ j) :
    (pairCols I_E I_I w_EE w_EI w_IE w_II tau_E tau_I dt M j).getD k (List.replicate 2 0)
      = [(WC_iter I_E I_I w_EE w_EI w_IE w_II tau_E tau_I dt k).1,
         (WC_iter I_E I_I w_EE w_EI w_IE w_II tau_E tau_I dt k).2] := by
  have hk' : k < (pairCols I_E I_I w_EE w_EI w_IE w_II tau_E tau_I dt M j).length := by
    simpa [pairCols] using hk
  rw [List.getD_eq_getElem _ _ hk']
  simp [pairCols, hkj]

/-- In the two-population configuration the vectorized loop reaches
exactly the recurrence columns. -/
theorem MW_state_two (M : ℕ) :
    ∀ j, j ≤ M - 1 →
    MW_state [I_E, I_I] [[w_EE, w_EI], [w_IE, w_II]] [tau_E, tau_I] dt 2 M j
      = some (pairCols I_E I_I w_EE w_EI w_IE w_II tau_E tau_I dt M j) := by
  intro j
  induction j with
  | zero =>
    intro _
    rw [pairCols_zero]
    rfl
  | succ j ih =>
    intro hj
    have hjM : j ≤ M - 1 := Nat.le_of_succ_le hj
    have hjlt : j + 1 < M := by omega
    rw [MW_state_succ, ih hjM,
      WC_MW_body_two I_E I_I w_EE w_EI w_IE w_II tau_E tau_I dt _ j
        (WC_iter I_E I_I w_EE w_EI w_IE w_II tau_E tau_I dt j).1
        (WC_iter I_E I_I w_EE w_EI w_IE w_II tau_E tau_I dt j).2
        (pairCols_getD I_E I_I w_EE w_EI w_IE w_II tau_E tau_I dt M j j (by omega) (le_refl j))]
    rw [show ((WC_iter I_E I_I w_EE w_EI w_IE w_II tau_E tau_I dt j).1 +
          dt / tau_E * (-(WC_iter I_E I_I w_EE w_EI w_IE w_II tau_E tau_I dt j).1 +
            act_fun (w_EE * (WC_iter I_E I_I w_EE w_EI w_IE w_II tau_E tau_I dt j).1 +
              w_EI * (WC_iter I_E I_I w_EE w_EI w_IE w_II tau_E tau_I dt j).2 + I_E)))
        = (WC_iter I_E I_I w_EE w_EI w_IE w_II tau_E tau_I dt (j + 1)).1 from rfl]
    rw [show ((WC_iter I_E I_I w_EE w_EI w_IE w_II tau_E tau_I dt j).2 +
          dt / tau_I * (-(WC_iter I_E I_I w_EE w_EI w_IE w_II tau_E tau_I dt j).2 +
            act_fun (w_IE * (WC_iter I_E I_I w_EE w_EI w_IE w_II tau_E tau_I dt j).1 +
              w_II * (WC_iter I_E I_I w_EE w_EI w_IE w_II tau_E tau_I dt j).2 + I_I)))
        = (WC_iter I_E I_I w_EE w_EI w_IE w_II tau_E tau_I dt (j + 1)).2 from rfl]
    rw [pairCols_set I_E I_I w_EE w_EI w_IE w_II tau_E tau_I dt M j hjlt]

theorem WC_solver_MW_eq_state (I : List ℚ) (W : List (List ℚ)) (tau : List ℚ)
    (dtv T_end : ℚ) :
    WC_solver_MW I W tau dtv T_end
      = (MW_state I W tau dtv W.length (arange T_end dtv).length
          ((arange T_end dtv).length - 1)).bind
          (fun r => some (r, arange T_end dtv)) := rfl

end MWBridge

/-- Folding the vectorized loop body from an aborted state stays
aborted. -/
theorem MW_foldl_none (I : List ℚ) (W : List (List ℚ)) (tau : List ℚ) (dtv : ℚ)
    (N : ℕ) (l : List ℕ) :
    l.foldl (WC_MW_body I W tau dtv N) none = none := by
  induction l with
  | nil => rfl
  | cons i l ih => simpa [WC_MW_body] using ih

/-- Concrete form of `np.arange` once the grid length is computed. -/
theorem arange_of_toNat (T_end dt : ℚ) (n : ℕ) (h : Int.toNat ⌈T_end / dt⌉ = n) :
    arange T_end dt = (List.range n).map (fun k : ℕ => (k : ℚ) * dt) := by
  rw [arange, h]

/-- If the vectorized solver returns at all, the time grid it returns
is `np.arange(0, T_end, dt)`. -/
theorem WC_solver_MW_snd (I : List ℚ) (W : List (List ℚ)) (tau : List ℚ)
    (dtv T_end : ℚ) (r : List (List ℚ)) (T2 : List ℚ)
    (h : WC_solver_MW I W tau dtv T_end = some (r, T2)) : T2 = arange T_end dtv := by
  rw [WC_solver_MW_eq_state] at h
  cases hm : MW_state I W tau dtv W.length (arange T_end dtv).length
      ((arange T_end dtv).length - 1) with
  | none => rw [hm] at h; simp at h
  | some r0 => rw [hm] at h; simp at h; exact h.2.symm

section Canonical

variable (I_E I_I w_EE w_EI w_IE w_II tau_E tau_I dt : ℚ)

/-- The activity arrays of `WC_solver` are the first `M` values of the
recurrence, as lists. -/
theorem WC_solver_eq_map (T_end : ℚ) :
    (WC_solver I_E I_I w_EE w_EI w_IE w_II tau_E tau_I dt T_end).1
      = (List.range (arange T_end dt).length).map
          (fun k => (WC_iter I_E I_I w_EE w_EI w_IE w_II tau_E tau_I dt k).1) ∧
    (WC_solver I_E I_I w_EE w_EI w_IE w_II tau_E tau_I dt T_end).2.1
      = (List.range (arange T_end dt).length).map
          (fun k => (WC_iter I_E I_I w_EE w_EI w_IE w_II tau_E tau_I dt k).2) := by
  have hlen := WC_solver_lengths I_E I_I w_EE w_EI w_IE w_II tau_E tau_I dt T_end
  constructor
  · apply List.ext_getElem
    · simp [hlen.1]
    · intro k h1 h2
      rw [← List.getD_eq_getElem _ 0 h1]
      simp only [List.getElem_map, List.getElem_range]
      exact (WC_solver_getD I_E I_I w_EE w_EI w_IE w_II tau_E tau_I dt T_end k
        (hlen.1 ▸ h1)).1
  · apply List.ext_getElem
    · simp [hlen.2]
    · intro k h1 h2
      rw [← List.getD_eq_getElem _ 0 h1]
      simp only [List.getElem_map, List.getElem_range]
      exact (WC_solver_getD I_E I_I w_EE w_EI w_IE w_II tau_E tau_I dt T_end k
        (hlen.2 ▸ h1)).2

theorem np_row_pairCols (M : ℕ) :
    np_row (pairCols I_E I_I w_EE w_EI w_IE w_II tau_E tau_I dt M (M - 1)) 0
      = (List.range M).map
          (fun k => (WC_iter I_E I_I w_EE w_EI w_IE w_II tau_E tau_I dt k).1) ∧
    np_row (pairCols I_E I_I w_EE w_EI w_IE w_II tau_E tau_I dt M (M - 1)) 1
      = (List.range M).map
          (fun k => (WC_iter I_E I_I w_EE w_EI w_IE w_II tau_E tau_I dt k).2) := by
  constructor <;>
  · apply List.ext_getElem
    · simp [np_row, pairCols]
    · intro k h1 h2
      have hkM : k < M := by simpa [np_row, pairCols] using h1
      simp only [np_row, pairCols, List.getElem_map, List.getElem_range,
        if_pos (by omega : k ≤ M - 1)]
      rfl

end Canonical

/-! ### Claim theorems -/

/-- C1: for every valid parameter set with N = 2, the vectorized solver
`WC_solver_MW` applied to `I = [I_E, I_I]`, `W = [[w_EE, w_EI], [w_IE,
w_II]]`, `tau = [tau_E, tau_I]`, `dt`, `T_end` produces the same
trajectories as the scalar solver `WC_solver` on the corresponding
scalar arguments: row 0 of `r` equals `r_E`, row 1 equals `r_I`, and
the returned time grids are equal. The embedding computes in exact
rational arithmetic, which realizes equality up to floating-point
association of the arithmetic. -/
theorem C1_MW_refines_scalar (I_E I_I w_EE w_EI w_IE w_II tau_E tau_I dt T_end : ℚ)
    (htauE : 0 < tau_E) (htauI : 0 < tau_I) (hdt : 0 < dt) (hT : 0 < T_end) :
    ∃ r T2,
      WC_solver_MW [I_E, I_I] [[w_EE, w_EI], [w_IE, w_II]] [tau_E, tau_I] dt T_end
        = some (r, T2) ∧
      np_row r 0 = (WC_solver I_E I_I w_EE w_EI w_IE w_II tau_E tau_I dt T_end).1 ∧
      np_row r 1 = (WC_solver I_E I_I w_EE w_EI w_IE w_II tau_E tau_I dt T_end).2.1 ∧
      T2 = (WC_solver I_E I_I w_EE w_EI w_IE w_II tau_E tau_I dt T_end).2.2 := by
  refine ⟨pairCols I_E I_I w_EE w_EI w_IE w_II tau_E tau_I dt (arange T_end dt).length
    ((arange T_end dt).length - 1), arange T_end dt, ?_, ?_, ?_, rfl⟩
  · rw [WC_solver_MW_eq_state,
      show ([[w_EE, w_EI], [w_IE, w_II]] : List (List ℚ)).length = 2 from rfl,
      MW_state_two I_E I_I w_EE w_EI w_IE w_II tau_E tau_I dt
        (arange T_end dt).length ((arange T_end dt).length - 1) (le_refl _)]
    rfl
  · rw [(np_row_pairCols I_E I_I w_EE w_EI w_IE w_II tau_E tau_I dt
      (arange T_end dt).length).1,
      (WC_solver_eq_map I_E I_I w_EE w_EI w_IE w_II tau_E tau_I dt T_end).1]
  · rw [(np_row_pairCols I_E I_I w_EE w_EI w_IE w_II tau_E tau_I dt
      (arange T_end dt).length).2,
      (WC_solver_eq_map I_E I_I w_EE w_EI w_IE w_II tau_E tau_I dt T_end).2]

/-- Witness for C1 at a concrete valid parameter set. -/
theorem C1_MW_refines_scalar_witness :
    (0 : ℚ) < 10 ∧ (0 : ℚ) < 1 ∧ (0 : ℚ) < 3 ∧
    (∃ r T2,
      WC_solver_MW [1, 1] [[1/2, -1/2], [1/2, -1/2]] [10, 10] 1 3 = some (r, T2) ∧
      np_row r 0 = (WC_solver 1 1 (1/2) (-1/2) (1/2) (-1/2) 10 10 1 3).1 ∧
      np_row r 1 = (WC_solver 1 1 (1/2) (-1/2) (1/2) (-1/2) 10 10 1 3).2.1 ∧
      T2 = (WC_solver 1 1 (1/2) (-1/2) (1/2) (-1/2) 10 10 1 3).2.2) :=
  ⟨by norm_num, by norm_num, by norm_num,
    C1_MW_refines_scalar 1 1 (1/2) (-1/2) (1/2) (-1/2) 10 10 1 3
      (by norm_num) (by norm_num) (by norm_num) (by norm_num)⟩

/-- C2: for every input with positive time constants, step and horizon,
`WC_solver` returns sequences with `r_E[0] = r_I[0] = 0` satisfying, for
each step `i` with `i+1 < M` (`M` the grid length), the synchronous
Euler recurrence
`r_E[i+1] = r_E[i] + dt/tau_E * (-r_E[i] + act_fun(w_EE*r_E[i] + w_EI*r_I[i] + I_E))`,
`r_I[i+1] = r_I[i] + dt/tau_I * (-r_I[i] + act_fun(w_IE*r_E[i] + w_II*r_I[i] + I_I))`:
both updates read only the index-`i` values. -/
theorem C2_scalar_recurrence (I_E I_I w_EE w_EI w_IE w_II tau_E tau_I dt T_end : ℚ)
    (htauE : 0 < tau_E) (htauI : 0 < tau_I) (hdt : 0 < dt) (hT : 0 < T_end) :
    ∀ r_E r_I T, WC_solver I_E I_I w_EE w_EI w_IE w_II tau_E tau_I dt T_end = (r_E, r_I, T) →
      r_E.getD 0 0 = 0 ∧ r_I.getD 0 0 = 0 ∧
      ∀ i, i + 1 < T.length →
        r_E.getD (i + 1) 0
          = r_E.getD i 0 + dt / tau_E *
              (-(r_E.getD i 0) + act_fun (w_EE * r_E.getD i 0 + w_EI * r_I.getD i 0 + I_E)) ∧
        r_I.getD (i + 1) 0
          = r_I.getD i 0 + dt / tau_I *
              (-(r_I.getD i 0) + act_fun (w_IE * r_E.getD i 0 + w_II * r_I.getD i 0 + I_I)) := by
  intro r_E r_I T h
  have hE : r_E = (WC_solver I_E I_I w_EE w_EI w_IE w_II tau_E tau_I dt T_end).1 := by
    rw [h]
  have hI : r_I = (WC_solver I_E I_I w_EE w_EI w_IE w_II tau_E tau_I dt T_end).2.1 := by
    rw [h]
  have hT2 : T = arange T_end dt := by rw [show T = (WC_solver I_E I_I w_EE w_EI w_IE w_II tau_E tau_I dt T_end).2.2 by rw [h]]; rfl
  subst hE hI hT2
  have hM0 : 0 < (arange T_end dt).length := arange_pos_length T_end dt hdt hT
  refine ⟨(WC_solver_getD I_E I_I w_EE w_EI w_IE w_II tau_E tau_I dt T_end 0 hM0).1,
    (WC_solver_getD I_E I_I w_EE w_EI w_IE w_II tau_E tau_I dt T_end 0 hM0).2, ?_⟩
  intro i hi
  have hiM : i < (arange T_end dt).length := by omega
  have h1 := WC_solver_getD I_E I_I w_EE w_EI w_IE w_II tau_E tau_I dt T_end i hiM
  have h2 := WC_solver_getD I_E I_I w_EE w_EI w_IE w_II tau_E tau_I dt T_end (i + 1) hi
  rw [h1.1, h1.2, h2.1, h2.2]
  exact ⟨rfl, rfl⟩

/-- Witness for C2 at a concrete valid input. -/
theorem C2_scalar_recurrence_witness :
    (0 : ℚ) < 1 ∧ (0 : ℚ) < 2 ∧
    ∀ r_E r_I T, WC_solver 1 1 (1/2) (-1/2) (1/2) (-1/2) 1 1 (1/2) 2 = (r_E, r_I, T) →
      r_E.getD 0 0 = 0 ∧ r_I.getD 0 0 = 0 ∧
      ∀ i, i + 1 < T.length →
        r_E.getD (i + 1) 0
          = r_E.getD i 0 + (1/2) / 1 *
              (-(r_E.getD i 0) + act_fun ((1/2) * r_E.getD i 0 + (-1/2) * r_I.getD i 0 + 1)) ∧
        r_I.getD (i + 1) 0
          = r_I.getD i 0 + (1/2) / 1 *
              (-(r_I.getD i 0) + act_fun ((1/2) * r_E.getD i 0 + (-1/2) * r_I.getD i 0 + 1)) :=
  ⟨by norm_num, by norm_num,
    C2_scalar_recurrence 1 1 (1/2) (-1/2) (1/2) (-1/2) 1 1 (1/2) 2
      (by norm_num) (by norm_num) (by norm_num) (by norm_num)⟩

/-- C5: for every `dt > 0` and `T_end > 0` the time grid returned by
either solver has length `⌈T_end/dt⌉`, starts at `0`, and has
`T[k] = k*dt` at every index. -/
theorem C5_time_grid (dt T_end : ℚ) (hdt : 0 < dt) (hT : 0 < T_end) :
    (∀ I_E I_I w_EE w_EI w_IE w_II tau_E tau_I r_E r_I T,
      WC_solver I_E I_I w_EE w_EI w_IE w_II tau_E tau_I dt T_end = (r_E, r_I, T) →
        T.length = Nat.ceil (T_end / dt) ∧ T.getD 0 0 = 0 ∧
        ∀ k, k < T.length → T.getD k 0 = (k : ℚ) * dt) ∧
    (∀ I W tau r T, WC_solver_MW I W tau dt T_end = some (r, T) →
        T.length = Nat.ceil (T_end / dt) ∧ T.getD 0 0 = 0 ∧
        ∀ k, k < T.length → T.getD k 0 = (k : ℚ) * dt) := by
  have harr : (arange T_end dt).length = Nat.ceil (T_end / dt) ∧
      (arange T_end dt).getD 0 0 = 0 ∧
      ∀ k, k < (arange T_end dt).length → (arange T_end dt).getD k 0 = (k : ℚ) * dt := by
    refine ⟨arange_length T_end dt, ?_, fun k hk => arange_getD T_end dt k hk⟩
    rw [arange_getD T_end dt 0 (arange_pos_length T_end dt hdt hT)]
    norm_num
  constructor
  · intro I_E I_I w_EE w_EI w_IE w_II tau_E tau_I r_E r_I T h
    have hT2 : T = arange T_end dt := by
      rw [show T = (WC_solver I_E I_I w_EE w_EI w_IE w_II tau_E tau_I dt T_end).2.2 by
        rw [h]]
      rfl
    rw [hT2]
    exact harr
  · intro I W tau r T h
    rw [WC_solver_MW_snd I W tau dt T_end r T h]
    exact harr

/-- Witness for C5 at a concrete step and horizon. -/
theorem C5_time_grid_witness :
    (0 : ℚ) < 1/2 ∧ (0 : ℚ) < 2 ∧
    ((∀ I_E I_I w_EE w_EI w_IE w_II tau_E tau_I r_E r_I T,
      WC_solver I_E I_I w_EE w_EI w_IE w_II tau_E tau_I (1/2) 2 = (r_E, r_I, T) →
        T.length = Nat.ceil ((2 : ℚ) / (1/2)) ∧ T.getD 0 0 = 0 ∧
        ∀ k, k < T.length → T.getD k 0 = (k : ℚ) * (1/2)) ∧
    (∀ I W tau r T, WC_solver_MW I W tau (1/2) 2 = some (r, T) →
        T.length = Nat.ceil ((2 : ℚ) / (1/2)) ∧ T.getD 0 0 = 0 ∧
        ∀ k, k < T.length → T.getD k 0 = (k : ℚ) * (1/2))) :=
  ⟨by norm_num, by norm_num, C5_time_grid (1/2) 2 (by norm_num) (by norm_num)⟩

/-- C9: for `0 < T_end ≤ dt` both solvers build the single-point grid
`[0]`, execute no update step, and return the all-zero single-point
activity sequences. -/
theorem C9_degenerate_grid (dt T_end : ℚ) (hdt : 0 < dt) (hT : 0 < T_end)
    (hge : T_end ≤ dt) :
    (∀ I_E I_I w_EE w_EI w_IE w_II tau_E tau_I : ℚ,
      WC_solver I_E I_I w_EE w_EI w_IE w_II tau_E tau_I dt T_end = ([0], [0], [0])) ∧
    (∀ (I : List ℚ) (W : List (List ℚ)) (tau : List ℚ),
      WC_solver_MW I W tau dt T_end = some ([List.replicate W.length 0], [0])) := by
  have h01 : arange T_end dt = [0] := arange_single T_end dt hT hge
  constructor
  · intro I_E I_I w_EE w_EI w_IE w_II tau_E tau_I
    rw [WC_solver_eq_state, h01]
    rfl
  · intro I W tau
    rw [WC_solver_MW_eq_state, h01]
    rfl

/-- Witness for C9 at `dt = T_end = 1`. -/
theorem C9_degenerate_grid_witness :
    (0 : ℚ) < 1 ∧ (1 : ℚ) ≤ 1 ∧
    ((∀ I_E I_I w_EE w_EI w_IE w_II tau_E tau_I : ℚ,
      WC_solver I_E I_I w_EE w_EI w_IE w_II tau_E tau_I 1 1 = ([0], [0], [0])) ∧
    (∀ (I : List ℚ) (W : List (List ℚ)) (tau : List ℚ),
      WC_solver_MW I W tau 1 1 = some ([List.replicate W.length 0], [0]))) :=
  ⟨by norm_num, by norm_num,
    C9_degenerate_grid 1 1 (by norm_num) (by norm_num) (by norm_num)⟩

/-- C3 (code evaluated at the failing input): the source solvers perform
no validation of the time constants. With `tau_E = 0` the scalar
`WC_solver` is not rejected before integration: it runs its loop and
returns a full trajectory (in exact rational arithmetic `dt/0 = 0`, so
the excitatory row stays at zero; the Python float scalar division
raises `ZeroDivisionError` only inside the first loop iteration, and the
vectorized `dt/tau` produces infinities silently). Likewise
`WC_solver_MW` with a zero `tau` entry returns a trajectory. This
contradicts the claimed `InvalidParameter` rejection before any
integration step. -/
theorem C3_no_tau_guard :
    (WC_solver 1 1 0 0 0 0 0 1 1 3).1 = [0, 0, 0] ∧
    (WC_solver 1 1 0 0 0 0 0 1 1 3).2.1 = [0, 1, 1] ∧
    (WC_solver 1 1 0 0 0 0 0 1 1 3).2.2 = [0, 1, 2] ∧
    WC_solver_MW [1, 1] [[0, 0], [0, 0]] [0, 1] 1 3
      = some ([[0, 0], [0, 1], [0, 1]], [0, 1, 2]) := by
  have harr : arange 3 1 = [0, 1, 2] := by
    rw [arange_of_toNat 3 1 3 (by norm_num; rfl)]
    norm_num [List.range_succ]
  have hmap := WC_solver_eq_map 1 1 0 0 0 0 0 1 1 3
  refine ⟨?_, ?_, ?_, ?_⟩
  · rw [hmap.1, harr]
    norm_num [List.range_succ, WC_iter, act_fun]
  · rw [hmap.2, harr]
    norm_num [List.range_succ, WC_iter, act_fun]
  · rw [show (WC_solver 1 1 0 0 0 0 0 1 1 3).2.2 = arange 3 1 from rfl, harr]
  · rw [WC_solver_MW_eq_state,
      show ([[(0 : ℚ), 0], [0, 0]] : List (List ℚ)).length = 2 from rfl,
      MW_state_two 1 1 0 0 0 0 0 1 1 (arange 3 1).length
        ((arange 3 1).length - 1) (le_refl _), harr]
    have hpc : pairCols 1 1 0 0 0 0 0 1 1 ([(0 : ℚ), 1, 2]).length
        (([(0 : ℚ), 1, 2]).length - 1) = [[0, 0], [0, 1], [0, 1]] := by
      norm_num [pairCols, List.range_succ, WC_iter, act_fun]
    rw [hpc]
    rfl

/-- C4 (code evaluated at the failing input): `WC_solver_MW` performs no
dimension validation. With a 3×3 weight matrix and a length-2 drive
vector it is not rejected before integration: when the grid has a
single point (`dt ≥ T_end`) it silently succeeds and returns a
trajectory, and on longer grids it aborts only inside the first loop
iteration with a generic broadcasting failure, not a `DimensionMismatch`
raised before integration work begins. -/
theorem C4_no_dimension_guard :
    WC_solver_MW [1, 1] [[0, 0, 0], [0, 0, 0], [0, 0, 0]] [1, 1, 1] 1 1
      = some ([[0, 0, 0]], [0]) ∧
    WC_solver_MW [1, 1] [[0, 0, 0], [0, 0, 0], [0, 0, 0]] [1, 1, 1] 1 3 = none := by
  constructor
  · rw [WC_solver_MW_eq_state, arange_single 1 1 (by norm_num) (by norm_num)]
    rfl
  · have harr : arange 3 1 = [0, 1, 2] := by
      rw [arange_of_toNat 3 1 3 (by norm_num; rfl)]
      norm_num [List.range_succ]
    have hbody : WC_MW_body [1, 1] [[0, 0, 0], [0, 0, 0], [0, 0, 0]] [1, 1, 1] 1 3
        (some (List.replicate 3 (List.replicate 3 0))) 0 = none := by
      simp [WC_MW_body, matvec, np_add, dotProd, List.replicate]
    rw [WC_solver_MW_eq_state, harr]
    norm_num [MW_state]
    rw [show (List.range 2) = [0, 1] by norm_num [List.range_succ],
      List.foldl_cons, hbody, List.foldl_cons]
    simp [WC_MW_body]

theorem act_fun_nonneg (z : ℚ) : 0 ≤ act_fun z := by
  rw [act_fun]
  split
  · linarith
  · exact le_refl 0

theorem act_fun_le (z b : ℚ) (hz : z ≤ b) (hb : 0 ≤ b) : act_fun z ≤ b := by
  rw [act_fun]
  split
  · exact hz
  · exact hb

/-- One Euler step with a relaxation coefficient in `[0, 1]` preserves
non-negativity of the state. -/
theorem euler_step_nonneg (e g c : ℚ) (he : 0 ≤ e) (hg : 0 ≤ g) (hc0 : 0 ≤ c)
    (hc1 : c ≤ 1) : 0 ≤ e + c * (-e + g) := by
  have h : e + c * (-e + g) = (1 - c) * e + c * g := by ring
  rw [h]
  have h1 : 0 ≤ (1 - c) * e := mul_nonneg (by linarith) he
  have h2 : 0 ≤ c * g := mul_nonneg hc0 hg
  linarith

theorem WC_iter_nonneg (I_E I_I w_EE w_EI w_IE w_II tau_E tau_I dt : ℚ)
    (htauE : 0 < tau_E) (htauI : 0 < tau_I) (hdt : 0 < dt)
    (hdtE : dt ≤ tau_E) (hdtI : dt ≤ tau_I) :
    ∀ k, 0 ≤ (WC_iter I_E I_I w_EE w_EI w_IE w_II tau_E tau_I dt k).1 ∧
         0 ≤ (WC_iter I_E I_I w_EE w_EI w_IE w_II tau_E tau_I dt k).2 := by
  intro k
  induction k with
  | zero => exact ⟨le_refl 0, le_refl 0⟩
  | succ k ih =>
    constructor
    · exact euler_step_nonneg _ _ _ ih.1 (act_fun_nonneg _)
        (div_nonneg hdt.le htauE.le) ((div_le_one htauE).mpr hdtE)
    · exact euler_step_nonneg _ _ _ ih.2 (act_fun_nonneg _)
        (div_nonneg hdt.le htauI.le) ((div_le_one htauI).mpr hdtI)

/-- The column read by the vectorized loop body is well-formed and
non-negative whenever the state is. -/
theorem getD_col_good (N : ℕ) (cols : List (List ℚ)) (hg : GoodCols N cols) (i : ℕ) :
    (cols.getD i (List.replicate N 0)).length = N ∧
    ∀ x ∈ cols.getD i (List.replicate N 0), 0 ≤ x := by
  rcases Nat.lt_or_ge i cols.length with hi | hi
  · rw [List.getD_eq_getElem _ _ hi]
    exact hg cols[i] (List.getElem_mem hi)
  · rw [List.getD_eq_default _ _ hi]
    refine ⟨List.length_replicate _ _, ?_⟩
    intro x hx
    rw [List.eq_of_mem_replicate hx]

/-- On well-formed non-negative states the vectorized loop body
succeeds and writes a well-formed non-negative column. -/
theorem WC_MW_body_good (I : List ℚ) (W : List (List ℚ)) (tau : List ℚ) (dtv : ℚ)
    (N : ℕ) (hW : W.length = N) (hsq : ∀ row ∈ W, row.length = N) (hI : I.length = N)
    (htau : tau.length = N) (htpos : ∀ t ∈ tau, 0 < t ∧ dtv ≤ t) (hdtv : 0 < dtv)
    (cols : List (List ℚ)) (hg : GoodCols N cols) (i : ℕ) :
    ∃ v' : List ℚ, v'.length = N ∧ (∀ x ∈ v', 0 ≤ x) ∧
      WC_MW_body I W tau dtv N (some cols) i = some (cols.set (i + 1) v') := by
  obtain ⟨hvlen, hvpos⟩ := getD_col_good N cols hg i
  have hvlen' : (cols[i]?.getD (List.replicate N 0)).length = N := by
    rw [← List.getD_eq_getElem?_getD]
    exact hvlen
  refine ⟨List.zipWith (· + ·) (cols.getD i (List.replicate N 0))
      (List.zipWith (· * ·) (tau.map (fun t => dtv / t))
        (List.zipWith (· + ·) ((cols.getD i (List.replicate N 0)).map (fun x => -x))
          ((List.zipWith (· + ·)
              (W.map (fun row => dotProd row (cols.getD i (List.replicate N 0)))) I).map
            act_fun))), ?_, ?_, ?_⟩
  · simp [hvlen, hvlen', hI, htau, hW]
  · intro x hx
    obtain ⟨m, hm, hxe⟩ := List.mem_iff_getElem.mp hx
    have hmN : m < N := by
      simpa [hvlen, hvlen', hI, htau, hW] using hm
    rw [← hxe]
    simp only [List.getElem_zipWith, List.getElem_map]
    have htm := htpos _ (List.getElem_mem (by omega : m < tau.length))
    have hmv2 : m < (cols.getD i (List.replicate N 0)).length := by omega
    have hvm : 0 ≤ (cols.getD i (List.replicate N 0))[m] :=
      hvpos _ (List.getElem_mem hmv2)
    exact euler_step_nonneg _ _ _ hvm (act_fun_nonneg _)
      (div_nonneg hdtv.le htm.1.le) ((div_le_one htm.1).mpr htm.2)
  · have hWrow : ∀ row ∈ W, row.length = (cols.getD i (List.replicate N 0)).length := by
      intro row hrow
      rw [hvlen]
      exact hsq row hrow
    have hmv : matvec W (cols.getD i (List.replicate N 0))
        = some (W.map (fun row => dotProd row (cols.getD i (List.replicate N 0)))) := by
      rw [matvec, if_pos hWrow]
    have hz : np_add (W.map (fun row => dotProd row (cols.getD i (List.replicate N 0)))) I
        = some (List.zipWith (· + ·)
            (W.map (fun row => dotProd row (cols.getD i (List.replicate N 0)))) I) := by
      rw [np_add, if_pos (by rw [List.length_map, hW, hI])]
    have hs1 : np_add ((cols.getD i (List.replicate N 0)).map (fun x => -x))
        ((List.zipWith (· + ·)
           (W.map (fun row => dotProd row (cols.getD i (List.replicate N 0)))) I).map
          act_fun)
        = some (List.zipWith (· + ·)
            ((cols.getD i (List.replicate N 0)).map (fun x => -x))
            ((List.zipWith (· + ·)
               (W.map (fun row => dotProd row (cols.getD i (List.replicate N 0)))) I).map
              act_fun)) := by
      rw [np_add, if_pos]
      simp [hvlen, hvlen', hI, hW]
    have hdr : np_mul (tau.map (fun t => dtv / t))
        (List.zipWith (· + ·) ((cols.getD i (List.replicate N 0)).map (fun x => -x))
          ((List.zipWith (· + ·)
             (W.map (fun row => dotProd row (cols.getD i (List.replicate N 0)))) I).map
            act_fun))
        = some (List.zipWith (· * ·) (tau.map (fun t => dtv / t))
            (List.zipWith (· + ·) ((cols.getD i (List.replicate N 0)).map (fun x => -x))
              ((List.zipWith (· + ·)
                 (W.map (fun row => dotProd row (cols.getD i (List.replicate N 0)))) I).map
                act_fun))) := by
      rw [np_mul, if_pos]
      simp [hvlen, hvlen', hI, htau, hW]
    have hv' : np_add (cols.getD i (List.replicate N 0))
        (List.zipWith (· * ·) (tau.map (fun t => dtv / t))
          (List.zipWith (· + ·) ((cols.getD i (List.replicate N 0)).map (fun x => -x))
            ((List.zipWith (· + ·)
               (W.map (fun row => dotProd row (cols.getD i (List.replicate N 0)))) I).map
              act_fun)))
        = some (List.zipWith (· + ·) (cols.getD i (List.replicate N 0))
            (List.zipWith (· * ·) (tau.map (fun t => dtv / t))
              (List.zipWith (· + ·) ((cols.getD i (List.replicate N 0)).map (fun x => -x))
                ((List.zipWith (· + ·)
                   (W.map (fun row => dotProd row (cols.getD i (List.replicate N 0)))) I).map
                  act_fun)))) := by
      rw [np_add, if_pos]
      simp [hvlen, hvlen', hI, htau, hW]
    simp only [WC_MW_body, Option.bind_eq_bind, hmv, Option.some_bind, hz, hs1, hdr, hv']
    rw [if_pos]
    · rfl
    · simp [hvlen, hvlen', hI, htau, hW]

/-- The vectorized Euler loop preserves well-formed non-negative
states. -/
theorem MW_foldl_good (I : List ℚ) (W : List (List ℚ)) (tau : List ℚ) (dtv : ℚ)
    (N : ℕ) (hW : W.length = N) (hsq : ∀ row ∈ W, row.length = N) (hI : I.length = N)
    (htau : tau.length = N) (htpos : ∀ t ∈ tau, 0 < t ∧ dtv ≤ t) (hdtv : 0 < dtv) :
    ∀ (l : List ℕ) (cols : List (List ℚ)), GoodCols N cols →
      ∀ r, l.foldl (WC_MW_body I W tau dtv N) (some cols) = some r → GoodCols N r := by
  intro l
  induction l with
  | nil =>
    intro cols hg r hr
    rw [List.foldl_nil, Option.some_inj] at hr
    exact hr ▸ hg
  | cons i l ih =>
    intro cols hg r hr
    obtain ⟨v', hlen, hpos, hbody⟩ :=
      WC_MW_body_good I W tau dtv N hW hsq hI htau htpos hdtv cols hg i
    rw [List.foldl_cons, hbody] at hr
    refine ih (cols.set (i + 1) v') ?_ r hr
    intro col hcol
    rcases List.mem_or_eq_of_mem_set hcol with h | h
    · exact hg col h
    · exact h ▸ ⟨hlen, hpos⟩

/-- C10: for every valid parameter set with `dt` no larger than any
time constant, every activity value produced by `WC_solver` (and, for
every successful run, by `WC_solver_MW`) is non-negative at every
population and time index: the update
`r[i+1] = (1 - dt/tau)*r[i] + (dt/tau)*act_fun(net input)` preserves
`r ≥ 0` since `act_fun` is non-negative and `0 ≤ 1 - dt/tau`, starting
from the all-zero state. -/
theorem C10_nonneg (I_E I_I w_EE w_EI w_IE w_II tau_E tau_I dt T_end : ℚ)
    (I tau : List ℚ) (W : List (List ℚ)) (dtv T_end2 : ℚ)
    (htauE : 0 < tau_E) (htauI : 0 < tau_I) (hdt : 0 < dt)
    (hdtE : dt ≤ tau_E) (hdtI : dt ≤ tau_I)
    (hsq : ∀ row ∈ W, row.length = W.length) (hI : I.length = W.length)
    (htau : tau.length = W.length) (htpos : ∀ t ∈ tau, 0 < t ∧ dtv ≤ t)
    (hdtv : 0 < dtv) :
    (∀ k, 0 ≤ (WC_solver I_E I_I w_EE w_EI w_IE w_II tau_E tau_I dt T_end).1.getD k 0 ∧
          0 ≤ (WC_solver I_E I_I w_EE w_EI w_IE w_II tau_E tau_I dt T_end).2.1.getD k 0) ∧
    (∀ r T2, WC_solver_MW I W tau dtv T_end2 = some (r, T2) →
       ∀ col ∈ r, ∀ x ∈ col, 0 ≤ x) := by
  constructor
  · intro k
    rcases Nat.lt_or_ge k (arange T_end dt).length with hk | hk
    · have h := WC_solver_getD I_E I_I w_EE w_EI w_IE w_II tau_E tau_I dt T_end k hk
      have hpos := WC_iter_nonneg I_E I_I w_EE w_EI w_IE w_II tau_E tau_I dt
        htauE htauI hdt hdtE hdtI k
      rw [h.1, h.2]
      exact hpos
    · have h := WC_solver_getD_oob I_E I_I w_EE w_EI w_IE w_II tau_E tau_I dt T_end k hk
      rw [h.1, h.2]
      exact ⟨le_refl 0, le_refl 0⟩
  · intro r T2 h
    rw [WC_solver_MW_eq_state] at h
    cases hm : MW_state I W tau dtv W.length (arange T_end2 dtv).length
        ((arange T_end2 dtv).length - 1) with
    | none => rw [hm] at h; simp at h
    | some r0 =>
      rw [hm] at h
      simp only [Option.some_bind, Option.some_inj] at h
      have hr0 : r0 = r := congrArg Prod.fst h
      have hinit : GoodCols W.length
          (List.replicate (arange T_end2 dtv).length (List.replicate W.length 0)) := by
        intro col hcol
        rw [List.eq_of_mem_replicate hcol]
        refine ⟨List.length_replicate _ _, ?_⟩
        intro x hx
        rw [List.eq_of_mem_replicate hx]
      have hgood := MW_foldl_good I W tau dtv W.length rfl hsq hI htau htpos hdtv
        (List.range ((arange T_end2 dtv).length - 1))
        (List.replicate (arange T_end2 dtv).length (List.replicate W.length 0))
        hinit r0 hm
      intro col hcol
      exact (hgood col (hr0 ▸ hcol)).2

/-- Witness for C10 at concrete parameters (`N = 1` for the vectorized
part). -/
theorem C10_nonneg_witness :
    (0 : ℚ) < 1 ∧ (0 : ℚ) < 2 ∧ (∀ t ∈ [(2 : ℚ)], 0 < t ∧ (1 : ℚ) ≤ t) ∧
    ((∀ k, 0 ≤ (WC_solver 1 1 (1/2) (-1/2) (1/2) (-1/2) 2 2 1 3).1.getD k 0 ∧
          0 ≤ (WC_solver 1 1 (1/2) (-1/2) (1/2) (-1/2) 2 2 1 3).2.1.getD k 0) ∧
    (∀ r T2, WC_solver_MW [1] [[3]] [2] 1 3 = some (r, T2) →
       ∀ col ∈ r, ∀ x ∈ col, 0 ≤ x)) :=
  ⟨by norm_num, by norm_num, by norm_num,
    C10_nonneg 1 1 (1/2) (-1/2) (1/2) (-1/2) 2 2 1 3 [1] [2] [[3]] 1 3
      (by norm_num) (by norm_num) (by norm_num) (by norm_num) (by norm_num)
      (by intro row hrow; simp at hrow; rw [hrow]; rfl)
      (by rfl) (by rfl) (by norm_num) (by norm_num)⟩

/-- With all four weights zero and positive drives the recurrence is the
pure relaxation `r[k+1] = r[k] + (dt/tau) * (I - r[k])`. -/
theorem WC_iter_zero_weights (I_E I_I tau_E tau_I dt : ℚ) (hIE : 0 < I_E)
    (hII : 0 < I_I) (k : ℕ) :
    WC_iter I_E I_I 0 0 0 0 tau_E tau_I dt (k + 1)
      = ((WC_iter I_E I_I 0 0 0 0 tau_E tau_I dt k).1
           + dt / tau_E * (I_E - (WC_iter I_E I_I 0 0 0 0 tau_E tau_I dt k).1),
         (WC_iter I_E I_I 0 0 0 0 tau_E tau_I dt k).2
           + dt / tau_I * (I_I - (WC_iter I_E I_I 0 0 0 0 tau_E tau_I dt k).2)) := by
  have ha : ∀ e i : ℚ, act_fun (0 * e + 0 * i + I_E) = I_E := by
    intro e i
    rw [show (0 : ℚ) * e + 0 * i + I_E = I_E by ring, act_fun, if_pos hIE]
  have hb : ∀ e i : ℚ, act_fun (0 * e + 0 * i + I_I) = I_I := by
    intro e i
    rw [show (0 : ℚ) * e + 0 * i + I_I = I_I by ring, act_fun, if_pos hII]
  simp only [WC_iter, ha, hb, Prod.mk.injEq]
  constructor <;> ring

/-- Monotone relaxation toward the drive for the zero-weight
recurrence, assuming `dt` below both time constants. -/
theorem WC_iter_zero_w_props (I_E I_I tau_E tau_I dt : ℚ) (hIE : 0 < I_E)
    (hII : 0 < I_I) (htauE : 0 < tau_E) (htauI : 0 < tau_I) (hdt : 0 < dt)
    (hdtE : dt ≤ tau_E) (hdtI : dt ≤ tau_I) :
    ∀ k, (0 ≤ (WC_iter I_E I_I 0 0 0 0 tau_E tau_I dt k).1 ∧
          (WC_iter I_E I_I 0 0 0 0 tau_E tau_I dt k).1 ≤ I_E ∧
          0 ≤ (WC_iter I_E I_I 0 0 0 0 tau_E tau_I dt k).2 ∧
          (WC_iter I_E I_I 0 0 0 0 tau_E tau_I dt k).2 ≤ I_I) ∧
        (WC_iter I_E I_I 0 0 0 0 tau_E tau_I dt k).1
          ≤ (WC_iter I_E I_I 0 0 0 0 tau_E tau_I dt (k + 1)).1 ∧
        (WC_iter I_E I_I 0 0 0 0 tau_E tau_I dt k).2
          ≤ (WC_iter I_E I_I 0 0 0 0 tau_E tau_I dt (k + 1)).2 ∧
        I_E - (WC_iter I_E I_I 0 0 0 0 tau_E tau_I dt (k + 1)).1
          ≤ I_E - (WC_iter I_E I_I 0 0 0 0 tau_E tau_I dt k).1 ∧
        I_I - (WC_iter I_E I_I 0 0 0 0 tau_E tau_I dt (k + 1)).2
          ≤ I_I - (WC_iter I_E I_I 0 0 0 0 tau_E tau_I dt k).2 := by
  have hcE0 : 0 ≤ dt / tau_E := div_nonneg hdt.le htauE.le
  have hcE1 : dt / tau_E ≤ 1 := (div_le_one htauE).mpr hdtE
  have hcI0 : 0 ≤ dt / tau_I := div_nonneg hdt.le htauI.le
  have hcI1 : dt / tau_I ≤ 1 := (div_le_one htauI).mpr hdtI
  have hbound : ∀ k, 0 ≤ (WC_iter I_E I_I 0 0 0 0 tau_E tau_I dt k).1 ∧
      (WC_iter I_E I_I 0 0 0 0 tau_E tau_I dt k).1 ≤ I_E ∧
      0 ≤ (WC_iter I_E I_I 0 0 0 0 tau_E tau_I dt k).2 ∧
      (WC_iter I_E I_I 0 0 0 0 tau_E tau_I dt k).2 ≤ I_I := by
    intro k
    induction k with
    | zero => exact ⟨le_refl 0, hIE.le, le_refl 0, hII.le⟩
    | succ k ih =>
      rw [WC_iter_zero_weights I_E I_I tau_E tau_I dt hIE hII k]
      obtain ⟨h1, h2, h3, h4⟩ := ih
      refine ⟨?_, ?_, ?_, ?_⟩
      · nlinarith
      · nlinarith
      · nlinarith
      · nlinarith
  intro k
  obtain ⟨h1, h2, h3, h4⟩ := hbound k
  rw [WC_iter_zero_weights I_E I_I tau_E tau_I dt hIE hII k]
  refine ⟨⟨h1, h2, h3, h4⟩, ?_, ?_, ?_, ?_⟩
  · nlinarith
  · nlinarith
  · nlinarith
  · nlinarith

/-- C8 counterexample: at the valid parameter set `I_E = I_I = 1`, all
weights `0`, `tau_E = tau_I = 1`, `dt = 2`, `T_end = 6` the first Euler
step overshoots the drive: `r_E[1] = 2 > 1 = I_E`, so the claimed
`r[k] ≤ r[k+1] ≤ I` fails at `k = 0`. -/
theorem C8_monotone_cex :
    ¬ ((WC_solver 1 1 0 0 0 0 1 1 2 6).1.getD 1 0 ≤ 1) := by
  have hlen : (arange 6 2).length = 3 := by
    rw [arange_length]
    norm_num
  have h := (WC_solver_getD 1 1 0 0 0 0 1 1 2 6 1 (by omega)).1
  rw [h]
  norm_num [WC_iter, act_fun]

/-- C8 (amended): with all four weights zero, strictly positive drives,
and additionally `dt ≤ tau_E` and `dt ≤ tau_I` (which the
counterexample shows is necessary), each activity sequence of
`WC_solver` is non-decreasing, stays below its drive, and its distance
to the drive is non-increasing: `r[k] ≤ r[k+1]`, `r[k] ≤ I`, and
`|I - r[k+1]| ≤ |I - r[k]|`. -/
theorem C8_monotone_amended (I_E I_I tau_E tau_I dt T_end : ℚ)
    (hIE : 0 < I_E) (hII : 0 < I_I) (htauE : 0 < tau_E) (htauI : 0 < tau_I)
    (hdt : 0 < dt) (hdtE : dt ≤ tau_E) (hdtI : dt ≤ tau_I) :
    ∀ r_E r_I T, WC_solver I_E I_I 0 0 0 0 tau_E tau_I dt T_end = (r_E, r_I, T) →
      ∀ k, r_E.getD k 0 ≤ I_E ∧ r_I.getD k 0 ≤ I_I ∧
        (k + 1 < T.length →
          r_E.getD k 0 ≤ r_E.getD (k + 1) 0 ∧ r_I.getD k 0 ≤ r_I.getD (k + 1) 0 ∧
          |I_E - r_E.getD (k + 1) 0| ≤ |I_E - r_E.getD k 0| ∧
          |I_I - r_I.getD (k + 1) 0| ≤ |I_I - r_I.getD k 0|) := by
  intro r_E r_I T h
  have hE : r_E = (WC_solver I_E I_I 0 0 0 0 tau_E tau_I dt T_end).1 := by rw [h]
  have hI : r_I = (WC_solver I_E I_I 0 0 0 0 tau_E tau_I dt T_end).2.1 := by rw [h]
  have hT2 : T = arange T_end dt := by
    rw [show T = (WC_solver I_E I_I 0 0 0 0 tau_E tau_I dt T_end).2.2 by rw [h]]
    rfl
  subst hE hI hT2
  intro k
  have hprops := WC_iter_zero_w_props I_E I_I tau_E tau_I dt hIE hII htauE htauI
    hdt hdtE hdtI
  rcases Nat.lt_or_ge k (arange T_end dt).length with hk | hk
  · have hgk := WC_solver_getD I_E I_I 0 0 0 0 tau_E tau_I dt T_end k hk
    obtain ⟨⟨_, h2, _, h4⟩, h5, h6, h7, h8⟩ := hprops k
    refine ⟨by rw [hgk.1]; exact h2, by rw [hgk.2]; exact h4, ?_⟩
    intro hk1
    have hgk1 := WC_solver_getD I_E I_I 0 0 0 0 tau_E tau_I dt T_end (k + 1) hk1
    obtain ⟨⟨_, h2', _, h4'⟩, _, _, _, _⟩ := hprops (k + 1)
    rw [hgk.1, hgk.2, hgk1.1, hgk1.2]
    refine ⟨h5, h6, ?_, ?_⟩
    · rw [abs_of_nonneg (by linarith), abs_of_nonneg (by linarith)]
      exact h7
    · rw [abs_of_nonneg (by linarith), abs_of_nonneg (by linarith)]
      exact h8
  · have hgk := WC_solver_getD_oob I_E I_I 0 0 0 0 tau_E tau_I dt T_end k hk
    refine ⟨by rw [hgk.1]; exact hIE.le, by rw [hgk.2]; exact hII.le, ?_⟩
    intro hk1
    omega

/-- Witness for the amended C8 at a concrete valid input. -/
theorem C8_monotone_amended_witness :
    (0 : ℚ) < 1 ∧ (1 : ℚ) ≤ 1 ∧
    (∀ r_E r_I T, WC_solver 1 1 0 0 0 0 1 1 1 3 = (r_E, r_I, T) →
      ∀ k, r_E.getD k 0 ≤ 1 ∧ r_I.getD k 0 ≤ 1 ∧
        (k + 1 < T.length →
          r_E.getD k 0 ≤ r_E.getD (k + 1) 0 ∧ r_I.getD k 0 ≤ r_I.getD (k + 1) 0 ∧
          |1 - r_E.getD (k + 1) 0| ≤ |1 - r_E.getD k 0| ∧
          |1 - r_I.getD (k + 1) 0| ≤ |1 - r_I.getD k 0|)) :=
  ⟨by norm_num, by norm_num,
    C8_monotone_amended 1 1 1 1 1 3 (by norm_num) (by norm_num) (by norm_num)
      (by norm_num) (by norm_num) (by norm_num) (by norm_num)⟩

theorem act_fun_of_pos (z : ℚ) (hz : 0 < z) : act_fun z = z := by
  rw [act_fun, if_pos hz]

/-- With `w_EI = w_IE = w_II = 0` the excitatory component follows the
self-contained recurrence `e' = e + dt/tau_E * (-e + act_fun(w_EE*e + I_E))`. -/
theorem WC_iter_single_pop (I_E I_I w_EE tau_E tau_I dt : ℚ) (k : ℕ) :
    (WC_iter I_E I_I w_EE 0 0 0 tau_E tau_I dt (k + 1)).1
      = (WC_iter I_E I_I w_EE 0 0 0 tau_E tau_I dt k).1
          + dt / tau_E * (-(WC_iter I_E I_I w_EE 0 0 0 tau_E tau_I dt k).1
            + act_fun (w_EE * (WC_iter I_E I_I w_EE 0 0 0 tau_E tau_I dt k).1 + I_E)) := by
  have ha : ∀ e i : ℚ, act_fun (w_EE * e + 0 * i + I_E) = act_fun (w_EE * e + I_E) := by
    intro e i
    rw [show w_EE * e + 0 * i + I_E = w_EE * e + I_E by ring]
  simp only [WC_iter, ha]

/-- Uniform bound for the stable single-population regime
(`w_EE < 1`, `dt ≤ tau_E`): the excitatory recurrence stays in
`[0, I_E / (1 - max w_EE 0)]`. -/
theorem WC_iter_single_bounded (I_E I_I w_EE tau_E tau_I dt : ℚ)
    (hIE : 0 < I_E) (hw : w_EE < 1) (htauE : 0 < tau_E) (hdt : 0 < dt)
    (hdtE : dt ≤ tau_E) :
    ∀ k, 0 ≤ (WC_iter I_E I_I w_EE 0 0 0 tau_E tau_I dt k).1 ∧
      (WC_iter I_E I_I w_EE 0 0 0 tau_E tau_I dt k).1 ≤ I_E / (1 - max w_EE 0) := by
  have hw0 : 0 ≤ max w_EE 0 := le_max_right _ _
  have hw1 : max w_EE 0 < 1 := max_lt hw one_pos
  have hd : 0 < 1 - max w_EE 0 := by linarith
  have hB : 0 < I_E / (1 - max w_EE 0) := div_pos hIE hd
  have hBI : max w_EE 0 * (I_E / (1 - max w_EE 0)) + I_E = I_E / (1 - max w_EE 0) := by
    field_simp
    ring
  have hc0 : 0 ≤ dt / tau_E := div_nonneg hdt.le htauE.le
  have hc1 : dt / tau_E ≤ 1 := (div_le_one htauE).mpr hdtE
  intro k
  induction k with
  | zero => exact ⟨le_refl 0, hB.le⟩
  | succ k ih =>
    obtain ⟨h0, h1⟩ := ih
    rw [WC_iter_single_pop]
    have harg : w_EE * (WC_iter I_E I_I w_EE 0 0 0 tau_E tau_I dt k).1 + I_E
        ≤ I_E / (1 - max w_EE 0) := by
      have hle : w_EE * (WC_iter I_E I_I w_EE 0 0 0 tau_E tau_I dt k).1
          ≤ max w_EE 0 * (WC_iter I_E I_I w_EE 0 0 0 tau_E tau_I dt k).1 :=
        mul_le_mul_of_nonneg_right (le_max_left _ _) h0
      have hle2 : max w_EE 0 * (WC_iter I_E I_I w_EE 0 0 0 tau_E tau_I dt k).1
          ≤ max w_EE 0 * (I_E / (1 - max w_EE 0)) :=
        mul_le_mul_of_nonneg_left h1 hw0
      linarith [hBI]
    have hg0 := act_fun_nonneg (w_EE * (WC_iter I_E I_I w_EE 0 0 0 tau_E tau_I dt k).1 + I_E)
    have hg1 := act_fun_le (w_EE * (WC_iter I_E I_I w_EE 0 0 0 tau_E tau_I dt k).1 + I_E)
      (I_E / (1 - max w_EE 0)) harg hB.le
    constructor
    · exact euler_step_nonneg _ _ _ h0 hg0 hc0 hc1
    · nlinarith

/-- Strict growth in the unstable single-population regime
(`w_EE > 1`): the excitatory recurrence is non-negative, strictly
increasing, and bounded below by `k * (dt/tau_E) * I_E`. -/
theorem WC_iter_single_diverge (I_E I_I w_EE tau_E tau_I dt : ℚ)
    (hIE : 0 < I_E) (hw : 1 < w_EE) (htauE : 0 < tau_E) (hdt : 0 < dt) :
    ∀ k, (0 ≤ (WC_iter I_E I_I w_EE 0 0 0 tau_E tau_I dt k).1 ∧
          (k : ℚ) * (dt / tau_E * I_E) ≤ (WC_iter I_E I_I w_EE 0 0 0 tau_E tau_I dt k).1) ∧
         (WC_iter I_E I_I w_EE 0 0 0 tau_E tau_I dt k).1
           < (WC_iter I_E I_I w_EE 0 0 0 tau_E tau_I dt (k + 1)).1 := by
  have hc : 0 < dt / tau_E := div_pos hdt htauE
  have hstep : ∀ k, 0 ≤ (WC_iter I_E I_I w_EE 0 0 0 tau_E tau_I dt k).1 →
      (WC_iter I_E I_I w_EE 0 0 0 tau_E tau_I dt k).1 + dt / tau_E * I_E
        ≤ (WC_iter I_E I_I w_EE 0 0 0 tau_E tau_I dt (k + 1)).1 := by
    intro k h0
    rw [WC_iter_single_pop]
    have harg : 0 < w_EE * (WC_iter I_E I_I w_EE 0 0 0 tau_E tau_I dt k).1 + I_E := by
      nlinarith
    rw [act_fun_of_pos _ harg]
    nlinarith [mul_nonneg hc.le (mul_nonneg (by linarith : (0 : ℚ) ≤ w_EE - 1) h0)]
  have hmain : ∀ k, 0 ≤ (WC_iter I_E I_I w_EE 0 0 0 tau_E tau_I dt k).1 ∧
      (k : ℚ) * (dt / tau_E * I_E) ≤ (WC_iter I_E I_I w_EE 0 0 0 tau_E tau_I dt k).1 := by
    intro k
    induction k with
    | zero => simp [WC_iter]
    | succ k ih =>
      obtain ⟨h0, h1⟩ := ih
      have h2 := hstep k h0
      constructor
      · nlinarith
      · push_cast
        nlinarith
  intro k
  obtain ⟨h0, h1⟩ := hmain k
  refine ⟨⟨h0, h1⟩, ?_⟩
  have h2 := hstep k h0
  nlinarith

/-- C7 counterexample: the boundedness half of the claim fails for a
valid parameter set when `dt` exceeds the time constant. At
`I_E = I_I = 1`, all weights `0` (so `w_EE = 0 < 1`), `tau_E = tau_I = 1`,
`dt = 3`, the trajectory satisfies `r_E[k] = 1 - (-2)^k`, whose
magnitude grows without bound as the (valid) horizon grows: no bound
`B` dominates `|r_E[k]|` over all horizons `T_end > dt`. -/
theorem C7_instability_cex :
    ¬ ∃ B : ℚ, ∀ T_end : ℚ, 3 < T_end → ∀ k : ℕ,
        |(WC_solver 1 1 0 0 0 0 1 1 3 T_end).1.getD k 0| ≤ B := by
  rintro ⟨B, hB⟩
  have hform : ∀ k : ℕ, (WC_iter 1 1 0 0 0 0 1 1 3 k).1 = 1 - (-2 : ℚ) ^ k := by
    intro k
    induction k with
    | zero => simp [WC_iter]
    | succ k ih =>
      rw [WC_iter_single_pop 1 1 0 1 1 3 k, ih]
      norm_num [act_fun]
      ring
  obtain ⟨n, hn⟩ := pow_unbounded_of_one_lt (B + 1) (by norm_num : (1 : ℚ) < 4)
  have hm : B + 1 < (4 : ℚ) ^ (n + 1) := by
    refine hn.trans_le (pow_le_pow_right₀ (by norm_num) (Nat.le_succ n))
  set m := n + 1 with hmdef
  have hTlen : (arange ((6 * m + 3 : ℕ) : ℚ) 3).length = 2 * m + 1 := by
    rw [arange_length]
    rw [show ((6 * m + 3 : ℕ) : ℚ) / 3 = ((2 * m + 1 : ℕ) : ℚ) by push_cast; ring]
    exact Nat.ceil_natCast _
  have hkM : 2 * m < (arange ((6 * m + 3 : ℕ) : ℚ) 3).length := by omega
  have hg := (WC_solver_getD 1 1 0 0 0 0 1 1 3 ((6 * m + 3 : ℕ) : ℚ) (2 * m) hkM).1
  have hT3 : (3 : ℚ) < ((6 * m + 3 : ℕ) : ℚ) := by
    push_cast
    have : (1 : ℚ) ≤ (m : ℚ) := by
      have : 1 ≤ m := by omega
      exact_mod_cast this
    linarith
  have hval := hB ((6 * m + 3 : ℕ) : ℚ) hT3 (2 * m)
  rw [hg, hform] at hval
  have hpow : ((-2 : ℚ)) ^ (2 * m) = 4 ^ m := by
    rw [pow_mul]
    norm_num
  rw [hpow] at hval
  have h1 : (1 : ℚ) ≤ 4 ^ m := one_le_pow₀ (by norm_num)
  have habs : |1 - (4 : ℚ) ^ m| = 4 ^ m - 1 := by
    rw [abs_of_nonpos (by linarith)]
    ring
  rw [habs] at hval
  linarith

/-- C7 (amended): in the single-excitatory-population configuration
`w_EI = w_IE = w_II = 0` with `I_E > 0`: if additionally `dt ≤ tau_E`
(which the counterexample shows is necessary for the bounded half),
then for `w_EE < 1` the `r_E` trajectory is bounded by the constant
`I_E / (1 - max w_EE 0)` uniformly over all horizons, while for
`w_EE > 1` (no extra condition) each step strictly exceeds the previous
one and `r_E[i]` grows at least linearly, i.e. without bound as the
horizon grows. -/
theorem C7_instability_amended (I_E I_I w_EE tau_E tau_I dt : ℚ)
    (hIE : 0 < I_E) (htauE : 0 < tau_E) (hdt : 0 < dt) :
    (dt ≤ tau_E → w_EE < 1 → ∀ T_end : ℚ, ∀ k : ℕ,
      |(WC_solver I_E I_I w_EE 0 0 0 tau_E tau_I dt T_end).1.getD k 0|
        ≤ I_E / (1 - max w_EE 0)) ∧
    (1 < w_EE → ∀ T_end : ℚ, ∀ i : ℕ,
      (i + 1 < (WC_solver I_E I_I w_EE 0 0 0 tau_E tau_I dt T_end).2.2.length →
        (WC_solver I_E I_I w_EE 0 0 0 tau_E tau_I dt T_end).1.getD i 0
          < (WC_solver I_E I_I w_EE 0 0 0 tau_E tau_I dt T_end).1.getD (i + 1) 0) ∧
      (i < (WC_solver I_E I_I w_EE 0 0 0 tau_E tau_I dt T_end).2.2.length →
        (i : ℚ) * (dt / tau_E * I_E)
          ≤ (WC_solver I_E I_I w_EE 0 0 0 tau_E tau_I dt T_end).1.getD i 0)) := by
  have hTlen : ∀ T_end : ℚ,
      (WC_solver I_E I_I w_EE 0 0 0 tau_E tau_I dt T_end).2.2.length
        = (arange T_end dt).length := fun _ => rfl
  constructor
  · intro hdtE hw T_end k
    have hB : 0 < I_E / (1 - max w_EE 0) :=
      div_pos hIE (by have := max_lt hw one_pos; linarith)
    rcases Nat.lt_or_ge k (arange T_end dt).length with hk | hk
    · rw [(WC_solver_getD I_E I_I w_EE 0 0 0 tau_E tau_I dt T_end k hk).1]
      obtain ⟨h0, h1⟩ := WC_iter_single_bounded I_E I_I w_EE tau_E tau_I dt
        hIE hw htauE hdt hdtE k
      rw [abs_of_nonneg h0]
      exact h1
    · rw [(WC_solver_getD_oob I_E I_I w_EE 0 0 0 tau_E tau_I dt T_end k hk).1]
      simpa using hB.le
  · intro hw T_end i
    constructor
    · intro hi1
      rw [hTlen] at hi1
      have hi : i < (arange T_end dt).length := by omega
      rw [(WC_solver_getD I_E I_I w_EE 0 0 0 tau_E tau_I dt T_end i hi).1,
        (WC_solver_getD I_E I_I w_EE 0 0 0 tau_E tau_I dt T_end (i + 1) hi1).1]
      exact (WC_iter_single_diverge I_E I_I w_EE tau_E tau_I dt hIE hw htauE hdt i).2
    · intro hi
      rw [hTlen] at hi
      rw [(WC_solver_getD I_E I_I w_EE 0 0 0 tau_E tau_I dt T_end i hi).1]
      exact (WC_iter_single_diverge I_E I_I w_EE tau_E tau_I dt hIE hw htauE hdt i).1.2

/-- Witness for the amended C7 at a concrete parameter set. -/
theorem C7_instability_amended_witness :
    (0 : ℚ) < 1 ∧
    (((1 : ℚ) ≤ 1 → (0 : ℚ) < 1 → ∀ T_end : ℚ, ∀ k : ℕ,
      |(WC_solver 1 1 0 0 0 0 1 1 1 T_end).1.getD k 0| ≤ 1 / (1 - max 0 0)) ∧
    ((1 : ℚ) < 0 → ∀ T_end : ℚ, ∀ i : ℕ,
      (i + 1 < (WC_solver 1 1 0 0 0 0 1 1 1 T_end).2.2.length →
        (WC_solver 1 1 0 0 0 0 1 1 1 T_end).1.getD i 0
          < (WC_solver 1 1 0 0 0 0 1 1 1 T_end).1.getD (i + 1) 0) ∧
      (i < (WC_solver 1 1 0 0 0 0 1 1 1 T_end).2.2.length →
        (i : ℚ) * (1 / 1 * 1) ≤ (WC_solver 1 1 0 0 0 0 1 1 1 T_end).1.getD i 0))) :=
  ⟨by norm_num,
    C7_instability_amended 1 1 0 1 1 1 (by norm_num) (by norm_num) (by norm_num)⟩

/-- Specification of the `np.argmax` scan: it returns either the
initial best index with no element of the remaining list exceeding the
initial best value, or the position of an element that dominates both
the initial best value and every element of the remaining list. -/
theorem argmaxAux_spec : ∀ (xs : List ℝ) (i bi : ℕ) (bv : ℝ),
    (argmaxAux xs i bi bv = bi ∧ ∀ x ∈ xs, x ≤ bv) ∨
    (∃ m, m < xs.length ∧ argmaxAux xs i bi bv = i + m ∧
      bv ≤ xs.getD m 0 ∧ ∀ x ∈ xs, x ≤ xs.getD m 0) := by
  intro xs
  induction xs with
  | nil =>
    intro i bi bv
    left
    exact ⟨rfl, by intro x hx; cases hx⟩
  | cons x xs ih =>
    intro i bi bv
    by_cases h : bv < x
    · rw [show argmaxAux (x :: xs) i bi bv = argmaxAux xs (i + 1) i x by
        rw [argmaxAux, if_pos h]]
      rcases ih (i + 1) i x with ⟨he, hall⟩ | ⟨m, hm, he, hbv, hall⟩
      · right
        refine ⟨0, by simp, by rw [he, Nat.add_zero], ?_, ?_⟩
        · rw [List.getD_cons_zero]
          exact h.le
        · intro y hy
          rw [List.getD_cons_zero]
          rcases List.mem_cons.mp hy with hy | hy
          · rw [hy]
          · exact hall y hy
      · right
        refine ⟨m + 1, by simpa using Nat.succ_lt_succ hm, by rw [he]; omega, ?_, ?_⟩
        · rw [List.getD_cons_succ]
          exact h.le.trans hbv
        · intro y hy
          rw [List.getD_cons_succ]
          rcases List.mem_cons.mp hy with hy | hy
          · rw [hy]
            exact hbv
          · exact hall y hy
    · rw [show argmaxAux (x :: xs) i bi bv = argmaxAux xs (i + 1) bi bv by
        rw [argmaxAux, if_neg h]]
      rcases ih (i + 1) bi bv with ⟨he, hall⟩ | ⟨m, hm, he, hbv, hall⟩
      · left
        refine ⟨he, ?_⟩
        intro y hy
        rcases List.mem_cons.mp hy with hy | hy
        · rw [hy]; linarith [not_lt.mp h]
        · exact hall y hy
      · right
        refine ⟨m + 1, by simpa using Nat.succ_lt_succ hm, by rw [he]; omega, ?_, ?_⟩
        · rw [List.getD_cons_succ]
          exact hbv
        · intro y hy
          rw [List.getD_cons_succ]
          rcases List.mem_cons.mp hy with hy | hy
          · rw [hy]
            linarith [not_lt.mp h, hbv]
          · exact hall y hy

/-- `np.argmax` on a non-empty list returns an in-range index whose
entry dominates every entry of the list. -/
theorem np_argmax_spec (l : List ℝ) (hl : l ≠ []) :
    np_argmax l < l.length ∧
    ∀ k, k < l.length → l.getD k 0 ≤ l.getD (np_argmax l) 0 := by
  cases l with
  | nil => exact absurd rfl hl
  | cons h t =>
    rw [show np_argmax (h :: t) = argmaxAux t 1 0 h by rfl]
    rcases argmaxAux_spec t 1 0 h with ⟨he, hall⟩ | ⟨m, hm, he, hbv, hall⟩
    · rw [he]
      refine ⟨by simp, ?_⟩
      intro k hk
      rw [List.getD_cons_zero]
      cases k with
      | zero => rw [List.getD_cons_zero]
      | succ j =>
        rw [List.getD_cons_succ]
        have hj : j < t.length := by simpa using hk
        exact hall _ (List.getD_eq_getElem t 0 hj ▸ List.getElem_mem hj)
    · rw [he]
      refine ⟨by simp only [List.length_cons]; omega, ?_⟩
      intro k hk
      rw [show (1 : ℕ) + m = m + 1 by omega, List.getD_cons_succ]
      cases k with
      | zero => rw [List.getD_cons_zero]; exact hbv
      | succ j =>
        rw [List.getD_cons_succ]
        have hj : j < t.length := by simpa using hk
        exact hall _ (List.getD_eq_getElem t 0 hj ▸ List.getElem_mem hj)

theorem fftfreq_length (n : ℕ) : (fftfreq n).length = n := by
  simp only [fftfreq, List.length_append, List.length_map, List.length_range]
  omega

/-- The entries of `fftpack.fftfreq(n)` are the signed DFT frequency
bins in closed form. -/
theorem fftfreq_getD (n k : ℕ) (hk : k < n) :
    (fftfreq n).getD k 0 = dftFreqBin n k := by
  have hsum : (n + 1) / 2 + n / 2 = n := by omega
  rcases Nat.lt_or_ge k ((n + 1) / 2) with hlt | hge
  · have hlen : k < ((List.range ((n + 1) / 2)).map (fun k : ℕ => (k : ℝ) / n)).length := by
      simpa using hlt
    rw [fftfreq, List.getD_append _ _ _ _ hlen, List.getD_eq_getElem _ _ hlen]
    simp only [List.getElem_map, List.getElem_range]
    rw [dftFreqBin, if_pos (by omega)]
  · have hlen1 : (((List.range ((n + 1) / 2)).map (fun k : ℕ => (k : ℝ) / n))).length
        = (n + 1) / 2 := by simp
    have hk2 : k - (n + 1) / 2 < n / 2 := by omega
    have hlen2 : k - (n + 1) / 2
        < ((List.range (n / 2)).map (fun k : ℕ => ((k : ℝ) - (n / 2 : ℕ)) / n)).length := by
      simpa using hk2
    rw [fftfreq, List.getD_append_right _ _ _ _ (by rw [hlen1]; exact hge)]
    rw [hlen1, List.getD_eq_getElem _ _ hlen2]
    simp only [List.getElem_map, List.getElem_range]
    rw [dftFreqBin, if_neg (by omega)]
    congr 1
    have hcast : ((k - (n + 1) / 2 : ℕ) : ℝ) = (k : ℝ) - ((n + 1) / 2 : ℕ) := by
      have h3 : (n + 1) / 2 ≤ k := hge
      push_cast [h3]
      ring
    rw [hcast]
    have h2 : ((n / 2 : ℕ) : ℝ) + (((n + 1) / 2 : ℕ) : ℝ) = (n : ℝ) := by
      rw [← Nat.cast_add]
      norm_cast
      omega
    linarith

theorem dft_length (x : List ℂ) : (dft x).length = x.length := by
  simp [dft]

/-- C6: for every non-empty real signal `x0` and sampling step `dt`,
`FF` returns `(freqs, X, max_freq, max_mag)` where `X` is the discrete
Fourier transform of `x0` minus the mean of its (non-missing) entries,
`freqs[k]` is the `k`-th signed DFT frequency bin of length `M` scaled
by `1000/dt`, and `max_freq`/`max_mag` are the frequency and the
magnitude `|X|` at an index maximizing `|X|` over all bins — bin 0
included in the search. -/
theorem C6_FF_spec (dt : ℝ) (x0 : List ℝ) (p : Bool) (hx : x0 ≠ []) :
    ∀ freqs X mf mm, FF dt x0 p = (freqs, X, mf, mm) →
      X = dft ((x0.map (fun v => v - listMean x0)).map (fun v : ℝ => (v : ℂ))) ∧
      freqs.length = x0.length ∧
      (∀ k, k < x0.length →
        freqs.getD k 0 = dftFreqBin x0.length k * (1000 / dt)) ∧
      (∃ j, j < x0.length ∧ mf = freqs.getD j 0 ∧ mm = Complex.abs (X.getD j 0) ∧
        ∀ k, k < x0.length → Complex.abs (X.getD k 0) ≤ mm) := by
  intro freqs X mf mm h
  simp only [FF, Prod.mk.injEq] at h
  obtain ⟨hfr, hX, hmf, hmm⟩ := h
  subst hfr hX hmf hmm
  have hn : 0 < x0.length := List.length_pos.mpr hx
  have hXlen : (dft ((x0.map (fun v => v - listMean x0)).map (fun v : ℝ => (v : ℂ)))).length
      = x0.length := by
    rw [dft_length, List.length_map, List.length_map]
  have hmagslen : ((dft ((x0.map (fun v => v - listMean x0)).map
      (fun v : ℝ => (v : ℂ)))).map Complex.abs).length = x0.length := by
    rw [List.length_map, hXlen]
  obtain ⟨hj, hmax⟩ := np_argmax_spec
    ((dft ((x0.map (fun v => v - listMean x0)).map (fun v : ℝ => (v : ℂ)))).map Complex.abs)
    (List.ne_nil_of_length_pos (by rw [hmagslen]; exact hn))
  rw [hmagslen] at hj
  have hmagsD : ∀ k, k < x0.length →
      ((dft ((x0.map (fun v => v - listMean x0)).map (fun v : ℝ => (v : ℂ)))).map
        Complex.abs).getD k 0
      = Complex.abs ((dft ((x0.map (fun v => v - listMean x0)).map
          (fun v : ℝ => (v : ℂ)))).getD k 0) := by
    intro k hk
    have hk1 : k < ((dft ((x0.map (fun v => v - listMean x0)).map
        (fun v : ℝ => (v : ℂ)))).map Complex.abs).length := by rw [hmagslen]; exact hk
    have hk2 : k < (dft ((x0.map (fun v => v - listMean x0)).map
        (fun v : ℝ => (v : ℂ)))).length := by rw [hXlen]; exact hk
    rw [List.getD_eq_getElem _ _ hk1, List.getD_eq_getElem _ _ hk2, List.getElem_map]
  refine ⟨rfl, ?_, ?_, ?_⟩
  · rw [List.length_map, fftfreq_length, List.length_map]
  · intro k hk
    have hk1 : k < ((fftfreq (x0.map (fun v => v - listMean x0)).length).map
        (fun v => v * (1000 / dt))).length := by
      rw [List.length_map, fftfreq_length, List.length_map]
      exact hk
    have hk2 : k < (fftfreq (x0.map (fun v => v - listMean x0)).length).length := by
      rw [fftfreq_length, List.length_map]
      exact hk
    rw [List.getD_eq_getElem _ _ hk1, List.getElem_map,
      ← List.getD_eq_getElem (fftfreq (x0.map (fun v => v - listMean x0)).length) 0 hk2,
      fftfreq_getD _ k (by rw [List.length_map]; exact hk), List.length_map]
  · refine ⟨np_argmax ((dft ((x0.map (fun v => v - listMean x0)).map
      (fun v : ℝ => (v : ℂ)))).map Complex.abs), hj, rfl, rfl, ?_⟩
    intro k hk
    have h1 := hmax k (by rw [hmagslen]; exact hk)
    rw [hmagsD k hk, hmagsD _ hj] at h1
    exact h1

/-- Witness for C6 at the singleton signal `[1]` with `dt = 1`. -/
theorem C6_FF_spec_witness :
    ([(1 : ℝ)] ≠ []) ∧
    (∀ freqs X mf mm, FF 1 [(1 : ℝ)] true = (freqs, X, mf, mm) →
      X = dft (([(1 : ℝ)].map (fun v => v - listMean [(1 : ℝ)])).map (fun v : ℝ => (v : ℂ))) ∧
      freqs.length = [(1 : ℝ)].length ∧
      (∀ k, k < [(1 : ℝ)].length →
        freqs.getD k 0 = dftFreqBin [(1 : ℝ)].length k * (1000 / 1)) ∧
      (∃ j, j < [(1 : ℝ)].length ∧ mf = freqs.getD j 0 ∧
        mm = Complex.abs (X.getD j 0) ∧
        ∀ k, k < [(1 : ℝ)].length → Complex.abs (X.getD k 0) ≤ mm)) :=
  ⟨by simp, C6_FF_spec 1 [(1 : ℝ)] true (by simp)⟩

end WCModel
